import Mathlib

/-!
# Verification of the BTC08 SPI mining driver

Shallow embedding, in Lean 4, of the parts of the `linux_apps_cgminer`
BTC08 driver (`src/driver-SPI-btc08.c`, `src/spi-context.c`,
`src/btc08-common.h`) that the specification's claims are about, together
with proofs or refutations of those claims.

Conventions:
* C machine integers are modelled as `Nat` with explicit reductions
  (`% 256` for `uint8_t`, `% 2^32` for `uint32_t`, `% 2^64` for
  `uint64_t`) at the points where the C evaluation truncates.
* C `bool` results are `Bool`; conversion of a C integer to `_Bool`
  yields `true` exactly when the integer is nonzero.
* Byte arrays are functions `Nat → Nat`; reading through an
  `unsigned char *` reduces the stored value `% 256`.
* Fallible or possibly out-of-bounds computations return `Option`.
-/

namespace BTC08

/-- `2^32`, the modulus of `uint32_t` arithmetic. -/
def U32 : Nat := 2 ^ 32

/-- `2^64`, the modulus of `uint64_t` arithmetic. -/
def U64 : Nat := 2 ^ 64

/-- `MAX_NONCE_SIZE` from `btc08-common.h` (ASIC build, the default
`#else` branch): `0xffffffff`. -/
def MAX_NONCE_SIZE : Nat := 0xffffffff

/-- `MAX_JOB_FIFO` from `btc08-common.h`. -/
def MAX_JOB_FIFO : Nat := 4

/-- `JOB_ID_NUM_MASK = MAX_JOB_FIFO*2-1 = 7` from `btc08-common.h`. -/
def JOB_ID_NUM_MASK : Nat := MAX_JOB_FIFO * 2 - 1

/-- Conversion of a C integer value to `_Bool` (C11 6.3.1.2): the result
is `true` exactly when the value is nonzero. -/
def cBool (i : Int) : Bool := i ≠ 0

/-! ## `spi_transfer_x20` (`src/spi-context.c`)

The function checks `len & 0x3`; on a misaligned length it logs an error
and executes `return -1;` — in a function whose declared return type is
`bool`, so the returned value is the `_Bool` conversion of `-1`.
Otherwise it performs the ioctl and returns `ret > 0`.

The model takes the ioctl return value as a parameter (the kernel's
response is outside the program) and records whether the ioctl was
issued at all. -/

/-- Result of one `spi_transfer_x20` call: whether the ioctl was issued,
and the C `bool` value returned to the caller. -/
structure SpiXferResult where
  ioctl_issued : Bool
  ret : Bool
  deriving Repr, DecidableEq

/-- `spi_transfer_x20(ctx, txbuf, rxbuf, len)` from `src/spi-context.c`,
with the ioctl's return value `ioctl_ret` supplied as an input.
`len % 4 ≠ 0` models `len & 0x3` being nonzero for the nonnegative
lengths the driver passes. -/
def spi_transfer_x20 (len : Nat) (ioctl_ret : Int) : SpiXferResult :=
  if len % 4 ≠ 0 then
    { ioctl_issued := false, ret := cBool (-1) }
  else
    { ioctl_issued := true, ret := decide (ioctl_ret > 0) }

/-! ## PLL table and `get_pll_idx` (`src/driver-SPI-btc08.c`)

Only the `freq` column of `pll_sets` is needed by the claims; the packed
PMS control words are not read by `get_pll_idx`. -/

/-- The `freq` fields of the 21-entry `pll_sets` table, in table order. -/
def pll_freqs : List Int :=
  [24, 50, 100, 150, 200, 250, 300, 350, 400, 450, 500,
   550, 600, 650, 700, 750, 800, 850, 900, 950, 1000]

/-- `NUM_PLL_SET = sizeof(pll_sets)/sizeof(struct pll_conf) = 21`. -/
def NUM_PLL_SET : Nat := pll_freqs.length

/-- `get_pll_idx(pll_freq)` from `src/driver-SPI-btc08.c`.  Below the
first table frequency it returns `-1`; above the last it returns the
last index; otherwise the scan loop (`for(plls = &pll_sets[0]; plls;
plls++) { if(pll_freq <= plls->freq) break; ret++; }`) returns the index
of the first entry with `pll_freq <= freq` — the loop's pointer guard
never fails, but the preceding bound checks guarantee the break is
reached within the table. -/
def get_pll_idx (pll_freq : Int) : Int :=
  if pll_freq < pll_freqs.getD 0 0 then -1
  else if pll_freq > pll_freqs.getD (NUM_PLL_SET - 1) 0 then
    ((NUM_PLL_SET - 1 : Nat) : Int)
  else
    ((pll_freqs.findIdx (fun q => pll_freq ≤ q) : Nat) : Int)

/-! ## `chain_detect` (`src/driver-SPI-btc08.c`)

AUTO_ADDRESS reports the chip count in response byte 1; then READ_ID is
issued for `chipId = num_chips` down to `1` and the response's byte 3
must echo the chip id; the loop breaks at the first mismatch.  If the
count of successful echoes differs from `num_chips`, both `num_chips`
and `num_active_chips` are forced to 0. -/

/-- Outcome of `chain_detect`: the chain's `num_chips` and
`num_active_chips` fields and the function's return value. -/
structure DetectResult where
  num_chips : Nat
  num_active_chips : Nat
  ret : Nat
  deriving Repr, DecidableEq

/-- The READ_ID loop of `chain_detect`: starting at chip id `c` and
walking down to 1, count consecutive chips whose READ_ID response byte 3
(`readId3 chipId`, reduced `% 256` as it is a `uint8_t`) echoes the chip
id; stop at the first mismatch. -/
def count_active (readId3 : Nat → Nat) : Nat → Nat
  | 0 => 0
  | c + 1 => if readId3 (c + 1) % 256 = c + 1 then 1 + count_active readId3 c else 0

/-- `chain_detect(btc08)` from `src/driver-SPI-btc08.c`.  The SPI
responses are inputs: `auto0` and `auto1` are bytes 0 and 1 of the
AUTO_ADDRESS response, `readId3 chipId` is byte 3 of the READ_ID
response for `chipId`.  `prev_num_chips`/`prev_active` are the fields'
values on entry (left unchanged on the early AUTO_ADDRESS error
return). -/
def chain_detect (auto0 auto1 : Nat) (readId3 : Nat → Nat)
    (prev_num_chips prev_active : Nat) : DetectResult :=
  if auto0 % 256 ≠ 0x01 then
    { num_chips := prev_num_chips, num_active_chips := prev_active, ret := 0 }
  else
    let n := auto1 % 256
    let active := count_active readId3 n
    if n ≠ active then
      { num_chips := 0, num_active_chips := 0, ret := 0 }
    else
      { num_chips := n, num_active_chips := active, ret := n }

/-! ## `nbits_from_target` (`src/driver-SPI-btc08.c`)

```c
static uint32_t nbits_from_target(unsigned char *target)
{
    uint32_t ret = 0;
    int ii = 31;
    while(target[ii--]==0);
    ii++;
    if(target[ii-2] == 0) ii++;
    ret = (ii+1)<<24;
    ret |= target[ii-0]<<16;
    ret |= target[ii-1]<< 8;
    ret |= target[ii-2]<< 0;
    return ret;
}
```

Two models are given.  `nbits_run` instruments every memory access with a
bounds check on the 32-byte array and returns `none` as soon as an access
falls outside indices 0..31 (the all-zero target makes the scan loop read
index `-1`; a top byte at index 0 or 1 makes `target[ii-2]` read a
negative index; a bump at index 31 reads index 32).  `nbits_from_target`
is the pure value computed on inputs where all accesses are in bounds;
`nbits_run_eq_some` below ties the two together. -/

/-- Value of byte `i` of a target viewed through `unsigned char *`. -/
def byteAt (t : Nat → Nat) (i : Nat) : Nat := t i % 256

/-- Bounds-checked byte read of the 32-byte target at a C `int` index. -/
def readByte (t : Nat → Nat) (i : Int) : Option Nat :=
  if 0 ≤ i ∧ i ≤ 31 then some (byteAt t i.toNat) else none

/-- The `while(target[ii--]==0);` scan, starting at index `i` and walking
down: the index of the highest nonzero byte at or below `i`, or `none`
when every byte down to 0 is zero (in which case the C loop reads index
`-1`). -/
def hiNonzeroAux (t : Nat → Nat) : Nat → Option Nat
  | 0 => if byteAt t 0 ≠ 0 then some 0 else none
  | i + 1 => if byteAt t (i + 1) ≠ 0 then some (i + 1) else hiNonzeroAux t i

/-- Index of the highest nonzero byte of the 32-byte target, if any. -/
def hiNonzero (t : Nat → Nat) : Option Nat := hiNonzeroAux t 31

/-- `nbits_from_target` with every array access bounds-checked: `none`
means the C code reads outside `target[0..31]` (or, for the all-zero
input, never terminates within the array). -/
def nbits_run (t : Nat → Nat) : Option Nat := do
  let k ← hiNonzero t
  let b ← readByte t ((k : Int) - 2)
  let ii : Int := if b = 0 then (k : Int) + 1 else (k : Int)
  let b2 ← readByte t ii
  let b1 ← readByte t (ii - 1)
  let b0 ← readByte t (ii - 2)
  pure (((ii.toNat + 1) <<< 24) ||| (b2 <<< 16) ||| (b1 <<< 8) ||| b0)

/-- The value `nbits_from_target` computes on an input whose accesses are
in bounds (`Nat` subtraction stands in for the C `int` subtraction; on
in-bounds inputs the highest nonzero index is at least 2, so they
agree). -/
def nbits_from_target (t : Nat → Nat) : Nat :=
  match hiNonzero t with
  | none => 0
  | some k =>
    let ii := if byteAt t (k - 2) = 0 then k + 1 else k
    ((ii + 1) <<< 24) ||| (byteAt t ii <<< 16) ||| (byteAt t (ii - 1) <<< 8) |||
      byteAt t (ii - 2)

/-! ## `calc_btc08_target` (`src/driver-SPI-btc08.c`) -/

/-- `bswap_32` of a `uint32_t` value. -/
def bswap_32 (x : Nat) : Nat :=
  x % 256 * 16777216 + x / 256 % 256 * 65536 + x / 65536 % 256 * 256 +
    x / 16777216 % 256

/-- `calc_btc08_target(dest_target, nbits)`: the 6 bytes written to
`dest_target`.  The `uint32_t` store of `bswap_32(nbits)` on the
little-endian host lays the word out least-significant byte first, so
`dest_target[0..3]` are the little-endian bytes of `bswap_32 nbits`.
`select0 = (dest_target[0] / 4) - 1` is `uint8_t` subtraction (wrapping);
`select1 = (dest_target[0] % 4) + 1`; byte 5 is `select1 << 4 | 0`. -/
def calc_btc08_target (nbits : Nat) : List Nat :=
  let w := bswap_32 nbits
  let d0 := w % 256
  let d1 := w / 256 % 256
  let d2 := w / 65536 % 256
  let d3 := w / 16777216 % 256
  let select0 := (d0 / 4 + 255) % 256
  let select1 := (d0 % 4 + 1) % 256
  [d0, d1, d2, d3, select0, select1 <<< 4 % 256]

/-- Value of the 32-byte big-endian target as a natural number: byte 31
is the most significant, so byte `i` has weight `256 ^ i`.  Recursion is
over how many low-index bytes are summed; the target's value is
`targetValue t 32`. -/
def targetValue (t : Nat → Nat) : Nat → Nat
  | 0 => 0
  | i + 1 => targetValue t i + byteAt t i * 256 ^ i

/-- Number of bytes in the base-256 representation of a value. -/
def byteLenAux : Nat → Nat → Nat
  | 0, _ => 0
  | fuel + 1, v => if v = 0 then 0 else byteLenAux fuel (v / 256) + 1

/-- Number of bytes in the base-256 representation of a value; the fuel
of 64 covers every value below `256 ^ 64`, far beyond 256-bit targets
(structural recursion keeps the definition kernel-computable). -/
def byteLen (v : Nat) : Nat := byteLenAux 64 v

/-- Modelled from the spec's words: the "standard Bitcoin compact
encoding (nBits)" of a (nonnegative) 256-bit value, as computed by
Bitcoin's `arith_uint256::GetCompact`: the exponent byte is the byte
length, the mantissa the three most significant bytes, shifted right one
byte (with the exponent incremented) when the leading mantissa byte is
`0x80` or larger.  This is the spec-side definition against which the
driver's `nbits_from_target` is compared; it is not in the repository's
sources. -/
def standardCompact (v : Nat) : Nat :=
  let nSize := byteLen v
  let mantissa := if nSize ≤ 3 then v <<< (8 * (3 - nSize)) else v >>> (8 * (nSize - 3))
  if 0x800000 ≤ mantissa then (((nSize + 1) <<< 24) ||| (mantissa >>> 8))
  else ((nSize <<< 24) ||| mantissa)

/-! ## Job scheduler state and `set_work` (`src/driver-SPI-btc08.c`) -/

/-- Command opcodes from `btc08-common.h` used by the job path. -/
def SPI_CMD_WRITE_PARM : Nat := 0x07

/-- `SPI_CMD_WRITE_TARGET` opcode. -/
def SPI_CMD_WRITE_TARGET : Nat := 0x09

/-- `SPI_CMD_RUN_JOB` opcode. -/
def SPI_CMD_RUN_JOB : Nat := 0x0B

/-- `BCAST_CHIP_ID` from `btc08-common.h`. -/
def BCAST_CHIP_ID : Nat := 0

/-- `ASIC_BOOST_EN = 1 << 1` from `btc08-common.h`. -/
def ASIC_BOOST_EN : Nat := 2

/-- The fields of `struct work` read by the modelled code paths.  `id`
identifies the work object so that releases can be tracked; `sdiff` is
the share difficulty (`double` in C; the claims only compare it for
equality); `target` the 32-byte target; `vmask` the truthiness of
`work->pool->vmask`; `parm` the 140-byte WRITE_PARM payload `create_job`
copies out of the midstates and data slice. -/
structure Work where
  id : Nat
  sdiff : Int
  target : Nat → Nat
  vmask : Bool
  parm : List Nat

/-- `create_job(chip_id, job, work)`: the WRITE_PARM frame (opcode,
chip id, 140 payload bytes). -/
def create_job (chip_id : Nat) (w : Work) : List Nat :=
  SPI_CMD_WRITE_PARM :: chip_id :: w.parm

/-- The per-chain state (`struct btc08_chain`) touched by `set_work` and
`btc08_flush_work`, plus a ghost trace `released` that records, in
order, every `struct work` handed back to the host through
`work_completed`. -/
structure Chain where
  work : Nat → Option Work
  last_queued_id : Nat
  sdiff : Int
  disabled : Bool
  queue : List Work
  is_processing_job : Bool
  num_cores : Nat
  perf : Nat
  released : List Work

/-- Store into the in-flight slot array (`btc08->work[i] = v`). -/
def updWork (f : Nat → Option Work) (i : Nat) (v : Option Work) :
    Nat → Option Work :=
  fun j => if j = i then v else f j

/-- Result of `cmd_WRITE_JOB_fast`: the updated chain, the batched
frames handed to `spi_transfer_x20_a` in order, and the function's
return value. -/
structure WriteJobResult where
  chain : Chain
  frames : List (List Nat)
  ret : Bool

/-- `cmd_WRITE_JOB_fast(btc08, job_id, job, work)`.  `transfer_ok` is
the result of the batched `spi_transfer_x20_a` ioctl.  The source wraps
that call in `assert(retb = spi_transfer_x20_a(...))`; the model takes
the post-assignment path (as in a build whose assert evaluates its
argument and continues), in which a failed transfer sets
`btc08->disabled` but the function still ends in `return true;`
irrespective of `retb`. -/
def cmd_WRITE_JOB_fast (ch : Chain) (job_id : Nat) (job : List Nat) (w : Work)
    (transfer_ok : Bool) : WriteJobResult :=
  let ch1 := if ch.sdiff ≠ w.sdiff then { ch with sdiff := w.sdiff } else ch
  let targetFrames : List (List Nat) :=
    if ch.sdiff ≠ w.sdiff then
      [SPI_CMD_WRITE_TARGET :: BCAST_CHIP_ID ::
         (calc_btc08_target (nbits_from_target w.target) ++ [0])]
    else []
  let runJob : List Nat :=
    [SPI_CMD_RUN_JOB, BCAST_CHIP_ID, if w.vmask then ASIC_BOOST_EN else 0,
     job_id % 256]
  { chain := { ch1 with disabled := !transfer_ok },
    frames := job :: (targetFrames ++ [runJob]),
    ret := true }

/-- Result of `set_work`: the updated chain, the frames issued, and the
"range finished" return value. -/
structure SetWorkResult where
  chain : Chain
  frames : List (List Nat)
  ret : Bool

/-- `set_work(btc08, work)` from `src/driver-SPI-btc08.c`.
`transfer_ok` is the outcome of the batched SPI transfer inside
`cmd_WRITE_JOB_fast`. -/
def set_work (ch : Chain) (w : Work) (transfer_ok : Bool) : SetWorkResult :=
  let job_id := (ch.last_queued_id + 1) % 256
  let st :=
    match ch.work ch.last_queued_id with
    | some old =>
        ({ ch with released := ch.released ++ [old],
                   work := updWork ch.work ch.last_queued_id none }, true)
    | none => (ch, false)
  let jobdata := create_job BCAST_CHIP_ID w
  let r := cmd_WRITE_JOB_fast st.1 job_id jobdata w transfer_ok
  if r.ret = false then
    { chain := { r.chain with released := r.chain.released ++ [w], disabled := true },
      frames := r.frames, ret := st.2 }
  else
    let ch2 := { r.chain with
                 work := updWork r.chain.work r.chain.last_queued_id (some w) }
    let lq := (ch2.last_queued_id + 1) % 256
    { chain := { ch2 with last_queued_id := if JOB_ID_NUM_MASK < lq then 0 else lq },
      frames := r.frames, ret := st.2 }

/-- `k` successive `set_work` invocations, the `i`-th (0-based) with
work `ws i` and transfer outcome `oks i`. -/
def set_work_iter (ch : Chain) (ws : Nat → Work) (oks : Nat → Bool) : Nat → Chain
  | 0 => ch
  | k + 1 => (set_work (set_work_iter ch ws oks k) (ws k) (oks k)).chain

/-! ## `btc08_flush_work` (`src/driver-SPI-btc08.c`) -/

/-- `DEV_DISABLED` from the host's `enum dev_enable`. -/
def DEV_DISABLED : Nat := 2

/-- `DEV_ENABLED` from the host's `enum dev_enable`. -/
def DEV_ENABLED : Nat := 0

/-- The slot-draining loop of `btc08_flush_work`: for `i` ascending over
the first `n` slots, a non-`NULL` occupant is passed to `work_completed`
(appended to the release trace) and the slot cleared. -/
def flush_slots (wk : Nat → Option Work) (rel : List Work) :
    Nat → (Nat → Option Work) × List Work
  | 0 => (wk, rel)
  | n + 1 =>
    let p := flush_slots wk rel n
    match p.1 n with
    | some w => (updWork p.1 n none, p.2 ++ [w])
    | none => p

/-- Result of `btc08_flush_work`: the chain state and the device's
`deven` field. -/
structure FlushResult where
  chain : Chain
  deven : Nat

/-- `btc08_flush_work(cgpu)` from `src/driver-SPI-btc08.c`.  `deven` is
`cgpu->deven` on entry; `reinit_ok` the outcome of
`reinit_btc08_chip`.  (`abort_work` only pulses the RESET GPIO and
broadcasts RESET; it touches none of the modelled state.) -/
def btc08_flush_work (ch : Chain) (deven : Nat) (reinit_ok : Bool) : FlushResult :=
  let p := flush_slots ch.work ch.released (JOB_ID_NUM_MASK + 1)
  let rel := p.2 ++ ch.queue
  let ch1 : Chain :=
    { ch with work := p.1, released := rel, queue := [], sdiff := 0,
              is_processing_job := false, num_cores := 0, perf := 0,
              last_queued_id := 0 }
  { chain := ch1, deven := if reinit_ok then deven else DEV_DISABLED }

/-! ## `calc_nonce_range` (`src/driver-SPI-btc08.c`)

```c
btc08->chips[btc08->last_chip].start_nonce = 0;
for(ii=btc08->last_chip; ii<(btc08->num_chips-1); ii++) {
    btc08->chips[ii].end_nonce = btc08->chips[ii].start_nonce
        + ((MAX_NONCE_SIZE*btc08->chips[ii].perf)/btc08->perf);
    btc08->chips[ii+1].start_nonce = btc08->chips[ii].end_nonce+1;
}
btc08->chips[btc08->num_chips-1].end_nonce = MAX_NONCE_SIZE;
```

`perf` fields are `uint64_t`, `start_nonce`/`end_nonce` are `uint32_t`:
the product `MAX_NONCE_SIZE*perf` and the division happen in 64-bit
arithmetic, and every store to `start_nonce`/`end_nonce` truncates
modulo `2^32`.  (`btc08->perf == 0` would be a division by zero in C;
all claims carry a positivity hypothesis.)  The test-mode branch gives
every chip the full range. -/

/-- The fields of `struct btc08_chip` read and written by
`calc_nonce_range`. -/
structure BChip where
  perf : Nat
  start_nonce : Nat
  end_nonce : Nat
  deriving Repr, DecidableEq

/-- Store into the chip array (`btc08->chips[i] = c`). -/
def updChip (cs : Nat → BChip) (i : Nat) (c : BChip) : Nat → BChip :=
  fun j => if j = i then c else cs j

/-- One chip's sub-range length:
`(MAX_NONCE_SIZE*btc08->chips[ii].perf)/btc08->perf` in `uint64_t`
arithmetic. -/
def nonce_share (P p : Nat) : Nat := MAX_NONCE_SIZE * p % U64 / P

/-- The partitioning loop of `calc_nonce_range`, running `steps`
iterations starting at chip index `ii`: each iteration stores
`end_nonce[ii] = (start_nonce[ii] + share) mod 2^32` and
`start_nonce[ii+1] = (end_nonce[ii] + 1) mod 2^32`. -/
def cnr_go (P : Nat) (cs : Nat → BChip) (ii : Nat) : Nat → Nat → BChip
  | 0 => cs
  | steps + 1 =>
    let c := cs ii
    let e := (c.start_nonce + nonce_share P c.perf) % U32
    let cs1 := updChip cs ii { c with end_nonce := e }
    let cs2 := updChip cs1 (ii + 1) { cs1 (ii + 1) with start_nonce := (e + 1) % U32 }
    cnr_go P cs2 (ii + 1) steps

/-- The test-mode branch: chips `last_chip..num_chips-1` each get the
full range `[0, MAX_NONCE_SIZE]`.  Recursion is over the number of
chips still to set, counted down from `num_chips`. -/
def cnr_test (cs : Nat → BChip) (last_chip : Nat) : Nat → Nat → BChip
  | 0 => cs
  | steps + 1 =>
    let i := last_chip + steps
    cnr_test (updChip cs i { cs i with start_nonce := 0, end_nonce := MAX_NONCE_SIZE })
      last_chip steps

/-- The nonce-assignment part of `calc_nonce_range(btc08)` (the
subsequent WRITE_NONCE transfers do not change the chip ranges). -/
def calc_nonce_range (test_mode : Nat) (last_chip num_chips P : Nat)
    (cs : Nat → BChip) : Nat → BChip :=
  if test_mode = 1 then cnr_test cs last_chip (num_chips - last_chip)
  else
    let cs0 := updChip cs last_chip { cs last_chip with start_nonce := 0 }
    let cs1 := cnr_go P cs0 last_chip (num_chips - 1 - last_chip)
    updChip cs1 (num_chips - 1)
      { cs1 (num_chips - 1) with end_nonce := MAX_NONCE_SIZE }

/-- `Σ (cs (L+k)).perf` over `k < t`: the chain's `perf` when it equals
the sum of the active chips' `perf` fields. -/
def perfSum (cs : Nat → BChip) (L : Nat) : Nat → Nat
  | 0 => 0
  | t + 1 => perfSum cs L t + (cs (L + t)).perf

/-! ## Concrete instances used by the claim evaluations and witnesses -/

/-- Witness for C3: a chain whose slot 0 holds a prior work. -/
def wNew : Work :=
  { id := 1, sdiff := 1, target := fun _ => 0, vmask := false, parm := [] }

/-- A distinct prior work occupying slot 0 in the C3 witness. -/
def wOld : Work :=
  { id := 2, sdiff := 2, target := fun _ => 0, vmask := true, parm := [] }

/-- A chain whose slot 0 is occupied by `wOld`. -/
def chainOcc : Chain :=
  { work := fun j => if j = 0 then some wOld else none, last_queued_id := 0,
    sdiff := 0, disabled := false, queue := [], is_processing_job := true,
    num_cores := 1, perf := 1, released := [] }

/-- The work used in the C1 evaluation. -/
def wC1 : Work :=
  { id := 0, sdiff := 1, target := fun _ => 0, vmask := false, parm := [] }

/-- An idle chain (all slots empty, `last_queued_id = 0`). -/
def chainIdle : Chain :=
  { work := fun _ => none, last_queued_id := 0, sdiff := 0, disabled := false,
    queue := [], is_processing_job := true, num_cores := 1, perf := 1,
    released := [] }

/-- A chain with one in-flight work (slot 2) and one queued work, for
the C9 witness. -/
def chainBusy : Chain :=
  { work := fun j => if j = 2 then some wOld else none, last_queued_id := 3,
    sdiff := 7, disabled := false, queue := [wNew], is_processing_job := true,
    num_cores := 5, perf := 9, released := [] }

/-- The counterexample target for C5: byte 0 is 1, byte 2 is `0x80`,
all others zero (value `0x800001`). -/
def tCtr : Nat → Nat := fun i => if i = 2 then 0x80 else if i = 0 then 1 else 0

/-- The work carrying `tCtr` as its target. -/
def wCtr : Work :=
  { id := 3, sdiff := 1, target := tCtr, vmask := false, parm := [] }

/-- `Σ nonce_share P (cs (L+k)).perf` over `k < t`: the total length
(minus per-chip 1s) the loop hands out in its first `t` iterations. -/
def shareSum (P : Nat) (cs : Nat → BChip) (L : Nat) : Nat → Nat
  | 0 => 0
  | t + 1 => shareSum P cs L t + nonce_share P ((cs (L + t)).perf)

/-- The chip array for the C4 counterexample: perfs 2, 1, 0 (a failed
last chip keeps `perf = 0` yet stays inside `last_chip..num_chips-1`). -/
def csCtr : Nat → BChip := fun i =>
  if i = 0 then { perf := 2, start_nonce := 0, end_nonce := 0 }
  else if i = 1 then { perf := 1, start_nonce := 0, end_nonce := 0 }
  else { perf := 0, start_nonce := 0, end_nonce := 0 }

/-- Chips with perfs 2, 1, 1 (sum 4) for the C4 witness. -/
def csW : Nat → BChip := fun i =>
  if i = 0 then { perf := 2, start_nonce := 0, end_nonce := 0 }
  else if i = 1 then { perf := 1, start_nonce := 0, end_nonce := 0 }
  else { perf := 1, start_nonce := 0, end_nonce := 0 }

/-! ## Claim C7: misaligned SPI transfer length -/

/-- **C7.**  The claim states that a transfer whose length is not a
multiple of 4 issues no ioctl and returns boolean `false`.  The code
does skip the ioctl, but its error path is `return -1;` in a function
returning C `bool`, and the `_Bool` conversion of `-1` is `true`: the
caller is told the transfer succeeded.  Evaluated here at the failing
input `len = 6` (any ioctl outcome): no ioctl is issued, yet the
returned value is `true`, not `false`. -/
theorem spi_transfer_x20_misaligned_returns_true :
    (spi_transfer_x20 6 1).ioctl_issued = false ∧
    (spi_transfer_x20 6 1).ret = true := by
  decide

/-! ## Claim C6: READ_ID echo mismatch zeroes the chip counts -/

/-- If the READ_ID countdown completes with as many echoes as chips,
then every chip in `1..n` echoed its id. -/
theorem count_active_full (readId3 : Nat → Nat) :
    ∀ n, count_active readId3 n = n →
      ∀ c, 1 ≤ c → c ≤ n → readId3 c % 256 = c := by
  intro n
  induction n with
  | zero => intro _ c hc1 hc0; omega
  | succ m ih =>
    intro h c hc1 hcm
    rw [count_active] at h
    by_cases hm : readId3 (m + 1) % 256 = m + 1
    · rw [if_pos hm] at h
      rcases Nat.lt_or_ge c (m + 1) with hlt | hge
      · exact ih (by omega) c hc1 (by omega)
      · have hc : c = m + 1 := by omega
        rw [hc]; exact hm
    · rw [if_neg hm] at h
      omega

/-- **C6.**  During chain detection with AUTO_ADDRESS reporting
`auto1 % 256` chips, if any chip id `c` in `1..N` fails the READ_ID
echo (`response byte 3 ≠ c`), then `chain_detect` sets both `num_chips`
and `num_active_chips` to 0. -/
theorem chain_detect_mismatch_zeroes (auto1 : Nat) (readId3 : Nat → Nat)
    (pn pa c : Nat) (hc1 : 1 ≤ c) (hcN : c ≤ auto1 % 256)
    (hmis : readId3 c % 256 ≠ c) :
    (chain_detect 0x01 auto1 readId3 pn pa).num_chips = 0 ∧
    (chain_detect 0x01 auto1 readId3 pn pa).num_active_chips = 0 := by
  have hne : auto1 % 256 ≠ count_active readId3 (auto1 % 256) := by
    intro h
    exact hmis (count_active_full readId3 _ h.symm c hc1 hcN)
  simp [chain_detect, hne]

/-- Witness for C6: a 3-chip report where chip 2's READ_ID response
byte 3 reads 7 instead of 2. -/
theorem chain_detect_mismatch_zeroes_witness :
    (1 ≤ 2 ∧ 2 ≤ 3 % 256 ∧ (fun c => if c = 2 then 7 else c) 2 % 256 ≠ 2) ∧
    (chain_detect 0x01 3 (fun c => if c = 2 then 7 else c) 5 5).num_chips = 0 ∧
    (chain_detect 0x01 3 (fun c => if c = 2 then 7 else c) 5 5).num_active_chips = 0 :=
  ⟨by decide,
   chain_detect_mismatch_zeroes 3 (fun c => if c = 2 then 7 else c) 5 5 2
     (by decide) (by decide) (by decide)⟩

/-! ## Claim C3: slot reuse releases the prior occupant -/

/-- **C3.**  `set_work` returns `true` exactly when the slot
`work[last_queued_id]` was occupied on entry; in that case the prior
occupant is passed to `work_completed` (appended to the release trace)
before the new job's frames are issued, and the slot ends up holding
the new work. -/
theorem set_work_range_finished (ch : Chain) (w : Work) (ok : Bool) :
    (set_work ch w ok).ret = (ch.work ch.last_queued_id).isSome ∧
    (∀ old, ch.work ch.last_queued_id = some old →
      (set_work ch w ok).chain.released = ch.released ++ [old]) ∧
    (set_work ch w ok).chain.work ch.last_queued_id = some w := by
  by_cases hs : ch.sdiff ≠ w.sdiff <;>
    cases h : ch.work ch.last_queued_id <;>
      simp [set_work, cmd_WRITE_JOB_fast, updWork, h, hs]

/-- Witness for C3, applying `set_work_range_finished` at `chainOcc`. -/
theorem set_work_range_finished_witness :
    (set_work chainOcc wNew true).ret = (chainOcc.work 0).isSome ∧
    (set_work chainOcc wNew true).chain.released = chainOcc.released ++ [wOld] ∧
    (set_work chainOcc wNew true).chain.work 0 = some wNew :=
  ⟨(set_work_range_finished chainOcc wNew true).1,
   (set_work_range_finished chainOcc wNew true).2.1 wOld rfl,
   (set_work_range_finished chainOcc wNew true).2.2⟩

/-! ## Claim C1: behaviour of `set_work` on SPI transfer failure -/

/-- **C1.**  Evaluation of `set_work` at a failing transfer
(`transfer_ok = false`): because `cmd_WRITE_JOB_fast` ends in
`return true;` regardless of the transfer result (the result is only
consumed by `assert`), `set_work` takes its success branch.  The chain
is marked disabled (by `cmd_WRITE_JOB_fast`), but — contrary to the
claim — the failed work IS installed into slot 0, `last_queued_id` IS
advanced to 1, and the work is NOT released back to the host (the
release trace stays empty). -/
theorem set_work_transfer_failure_behaviour :
    (set_work chainIdle wC1 false).chain.work 0 = some wC1 ∧
    (set_work chainIdle wC1 false).chain.last_queued_id = 1 ∧
    (set_work chainIdle wC1 false).chain.released = [] ∧
    (set_work chainIdle wC1 false).chain.disabled = true :=
  ⟨rfl, rfl, rfl, rfl⟩

/-! ## Claim C2: job-id sequence of successive `set_work` calls -/

/-- One `set_work` call advances `last_queued_id` from `q ≤ 7` to
`(q + 1) % 8` (regardless of the transfer outcome, since
`cmd_WRITE_JOB_fast` always reports success). -/
theorem set_work_advances_id (ch : Chain) (w : Work) (ok : Bool)
    (h : ch.last_queued_id ≤ 7) :
    (set_work ch w ok).chain.last_queued_id = (ch.last_queued_id + 1) % 8 := by
  have h256 : (ch.last_queued_id + 1) % 256 = ch.last_queued_id + 1 := by omega
  by_cases hs : ch.sdiff ≠ w.sdiff <;>
    cases hw : ch.work ch.last_queued_id <;>
      simp only [set_work, cmd_WRITE_JOB_fast, hw, hs, h256, JOB_ID_NUM_MASK,
        MAX_JOB_FIFO, if_neg, if_pos, ite_not, reduceCtorEq, if_false,
        Bool.false_eq_true, ite_false, ite_true, if_neg] <;>
      split_ifs <;> omega

/-- `cmd_WRITE_JOB_fast` always reports success. -/
theorem cmd_WRITE_JOB_fast_ret (ch : Chain) (j : Nat) (job : List Nat)
    (w : Work) (ok : Bool) : (cmd_WRITE_JOB_fast ch j job w ok).ret = true :=
  rfl

/-- The last frame of the `cmd_WRITE_JOB_fast` batch is the RUN_JOB
frame, with the job-id byte at offset 3. -/
theorem cmd_WRITE_JOB_fast_frames_getLast (ch : Chain) (j : Nat)
    (job : List Nat) (w : Work) (ok : Bool) :
    (cmd_WRITE_JOB_fast ch j job w ok).frames.getLast? =
      some [SPI_CMD_RUN_JOB, BCAST_CHIP_ID,
            if w.vmask then ASIC_BOOST_EN else 0, j % 256] := by
  simp only [cmd_WRITE_JOB_fast]
  rw [← List.cons_append, List.getLast?_concat]

/-- The RUN_JOB frame (last of the batch) carries job-id byte
`(last_queued_id + 1) % 256` at offset 3. -/
theorem set_work_run_job_frame (ch : Chain) (w : Work) (ok : Bool) :
    (set_work ch w ok).frames.getLast? =
      some [SPI_CMD_RUN_JOB, BCAST_CHIP_ID,
            if w.vmask then ASIC_BOOST_EN else 0,
            (ch.last_queued_id + 1) % 256] := by
  have hm : ((ch.last_queued_id + 1) % 256) % 256 = (ch.last_queued_id + 1) % 256 := by
    omega
  cases hw : ch.work ch.last_queued_id <;>
    simp only [set_work, hw, cmd_WRITE_JOB_fast_ret, reduceCtorEq,
      Bool.true_eq_false, if_false, ite_false] <;>
    rw [cmd_WRITE_JOB_fast_frames_getLast, hm]

/-- After `k` `set_work` calls from `last_queued_id = 0`, the counter
reads `k % 8`. -/
theorem set_work_iter_id (ch : Chain) (ws : Nat → Work) (oks : Nat → Bool)
    (h0 : ch.last_queued_id = 0) :
    ∀ k, (set_work_iter ch ws oks k).last_queued_id = k % 8 := by
  intro k
  induction k with
  | zero => simpa [set_work_iter]
  | succ m ih =>
    have hle : (set_work_iter ch ws oks m).last_queued_id ≤ 7 := by
      rw [ih]; omega
    have := set_work_advances_id (set_work_iter ch ws oks m) (ws m) (oks m) hle
    rw [set_work_iter, this, ih]
    omega

/-- **C2.**  Starting from `last_queued_id = 0`, the `k`-th `set_work`
invocation (1-based; every invocation installs its work, as
`cmd_WRITE_JOB_fast` always reports success) issues a RUN_JOB frame
with job-id byte `((k-1) mod 8) + 1` and leaves
`last_queued_id = k mod 8` — the job-ids cycle 1, 2, …, 8, 1, 2, …. -/
theorem set_work_jobid_sequence (ch : Chain) (ws : Nat → Work)
    (oks : Nat → Bool) (h0 : ch.last_queued_id = 0) (k : Nat) (_hk : 1 ≤ k) :
    (set_work (set_work_iter ch ws oks (k - 1)) (ws (k - 1))
        (oks (k - 1))).frames.getLast? =
      some [SPI_CMD_RUN_JOB, BCAST_CHIP_ID,
            if (ws (k - 1)).vmask then ASIC_BOOST_EN else 0,
            (k - 1) % 8 + 1] ∧
    (set_work_iter ch ws oks k).last_queued_id = k % 8 := by
  constructor
  · rw [set_work_run_job_frame, set_work_iter_id ch ws oks h0 (k - 1)]
    have hmod : ((k - 1) % 8 + 1) % 256 = (k - 1) % 8 + 1 := by omega
    rw [hmod]
  · exact set_work_iter_id ch ws oks h0 k

/-- Witness for C2 at `k = 9`: the 9th invocation wraps back to
job-id 1 and leaves `last_queued_id = 1`. -/
theorem set_work_jobid_sequence_witness :
    chainIdle.last_queued_id = 0 ∧ 1 ≤ 9 ∧
    ((set_work (set_work_iter chainIdle (fun _ => wC1) (fun _ => true) 8) wC1
        true).frames.getLast? =
      some [SPI_CMD_RUN_JOB, BCAST_CHIP_ID,
            if wC1.vmask then ASIC_BOOST_EN else 0, 8 % 8 + 1] ∧
    (set_work_iter chainIdle (fun _ => wC1) (fun _ => true) 9).last_queued_id =
      9 % 8) :=
  ⟨rfl, by omega,
   set_work_jobid_sequence chainIdle (fun _ => wC1) (fun _ => true) rfl 9
     (by omega)⟩

/-! ## Claim C9: `btc08_flush_work` drains all work and resets state -/

/-- The first component of `flush_slots`: slots below `n` are cleared,
the rest untouched. -/
theorem flush_slots_fst (wk : Nat → Option Work) (rel : List Work) :
    ∀ n i, (flush_slots wk rel n).1 i = if i < n then none else wk i := by
  intro n
  induction n with
  | zero => intro i; simp [flush_slots]
  | succ m ih =>
    intro i
    rw [flush_slots]
    cases h : (flush_slots wk rel m).1 m with
    | some w =>
      simp only [updWork]
      by_cases hi : i = m
      · subst hi; simp
      · have := ih i
        simp only [if_neg hi, this]
        by_cases him : i < m
        · simp [him, Nat.lt_succ_of_lt him]
        · have : ¬ i < m + 1 := by omega
          simp [him, this]
    | none =>
      have := ih i
      by_cases him : i < m
      · simp only [this, if_pos him, if_pos (Nat.lt_succ_of_lt him)]
      · by_cases hi : i = m
        · subst hi
          rw [if_pos (Nat.lt_succ_self i)]
          exact h
        · have h2 : ¬ i < m + 1 := by omega
          simp only [this, if_neg him, if_neg h2]

/-- Every occupant of a slot below `n` ends up in the release trace of
`flush_slots`. -/
theorem flush_slots_mem (wk : Nat → Option Work) (rel : List Work) :
    ∀ n i w, i < n → wk i = some w → w ∈ (flush_slots wk rel n).2 := by
  intro n
  induction n with
  | zero => intro i w hi; omega
  | succ m ih =>
    intro i w hi hw
    rw [flush_slots]
    by_cases him : i < m
    · have hmem := ih i w him hw
      cases h : (flush_slots wk rel m).1 m with
      | some w2 => exact List.mem_append_left _ hmem
      | none => exact hmem
    · have hieq : i = m := by omega
      have hfst := flush_slots_fst wk rel m m
      rw [if_neg (lt_irrefl m)] at hfst
      rw [hieq] at hw
      rw [hw] at hfst
      simp only [hfst]
      exact List.mem_append_right _ (List.mem_singleton.mpr rfl)

/-- **C9.**  After `btc08_flush_work`: every in-flight slot `0..7` is
empty and each prior occupant was released to the host; the pending
queue is empty and every queued work was released; `sdiff`,
`is_processing_job`, `num_cores`, `perf` and `last_queued_id` are
cleared; and if the chain re-init failed the device is marked
`DEV_DISABLED`. -/
theorem btc08_flush_work_spec (ch : Chain) (deven : Nat) (reinit_ok : Bool) :
    (∀ i, i ≤ JOB_ID_NUM_MASK →
      (btc08_flush_work ch deven reinit_ok).chain.work i = none) ∧
    (∀ i w, i ≤ JOB_ID_NUM_MASK → ch.work i = some w →
      w ∈ (btc08_flush_work ch deven reinit_ok).chain.released) ∧
    (∀ w ∈ ch.queue, w ∈ (btc08_flush_work ch deven reinit_ok).chain.released) ∧
    (btc08_flush_work ch deven reinit_ok).chain.queue = [] ∧
    (btc08_flush_work ch deven reinit_ok).chain.sdiff = 0 ∧
    (btc08_flush_work ch deven reinit_ok).chain.is_processing_job = false ∧
    (btc08_flush_work ch deven reinit_ok).chain.num_cores = 0 ∧
    (btc08_flush_work ch deven reinit_ok).chain.perf = 0 ∧
    (btc08_flush_work ch deven reinit_ok).chain.last_queued_id = 0 ∧
    (reinit_ok = false →
      (btc08_flush_work ch deven reinit_ok).deven = DEV_DISABLED) := by
  refine ⟨?_, ?_, ?_, rfl, rfl, rfl, rfl, rfl, rfl, ?_⟩
  · intro i hi
    show (flush_slots ch.work ch.released (JOB_ID_NUM_MASK + 1)).1 i = none
    rw [flush_slots_fst, if_pos (by omega)]
  · intro i w hi hw
    show w ∈ (flush_slots ch.work ch.released (JOB_ID_NUM_MASK + 1)).2 ++ ch.queue
    exact List.mem_append_left _
      (flush_slots_mem ch.work ch.released _ i w (by omega) hw)
  · intro w hw
    show w ∈ (flush_slots ch.work ch.released (JOB_ID_NUM_MASK + 1)).2 ++ ch.queue
    exact List.mem_append_right _ hw
  · intro h
    simp [btc08_flush_work, h]

/-- Witness for C9, applying `btc08_flush_work_spec` at `chainBusy`
with a failing re-init. -/
theorem btc08_flush_work_spec_witness :
    (btc08_flush_work chainBusy 0 false).chain.work 2 = none ∧
    wOld ∈ (btc08_flush_work chainBusy 0 false).chain.released ∧
    wNew ∈ (btc08_flush_work chainBusy 0 false).chain.released ∧
    (btc08_flush_work chainBusy 0 false).chain.last_queued_id = 0 ∧
    (btc08_flush_work chainBusy 0 false).deven = DEV_DISABLED :=
  ⟨(btc08_flush_work_spec chainBusy 0 false).1 2 (by decide),
   (btc08_flush_work_spec chainBusy 0 false).2.1 2 wOld (by decide) rfl,
   (btc08_flush_work_spec chainBusy 0 false).2.2.1 wNew (by simp [chainBusy]),
   (btc08_flush_work_spec chainBusy 0 false).2.2.2.2.2.2.2.2.1,
   (btc08_flush_work_spec chainBusy 0 false).2.2.2.2.2.2.2.2.2 rfl⟩

/-! ## Claim C8: PLL table index selection -/

/-- Characterisation of `List.findIdx` through `getD` when a witness
exists: the found index is in range, its entry satisfies the predicate,
and no earlier entry does. -/
theorem findIdx_getD_spec {α : Type} (p : α → Bool) :
    ∀ (l : List α) (d : α), (∃ x ∈ l, p x = true) →
      l.findIdx p < l.length ∧ p (l.getD (l.findIdx p) d) = true ∧
        ∀ j, j < l.findIdx p → p (l.getD j d) = false := by
  intro l
  induction l with
  | nil => intro d hex; simp at hex
  | cons a l ih =>
    intro d hex
    by_cases hpa : p a = true
    · refine ⟨?_, ?_, ?_⟩ <;> simp [List.findIdx_cons, hpa]
    · have hex' : ∃ x ∈ l, p x = true := by
        rcases hex with ⟨x, hx, hpx⟩
        rcases List.mem_cons.mp hx with h | h
        · exact absurd (h ▸ hpx) hpa
        · exact ⟨x, h, hpx⟩
      rcases ih d hex' with ⟨h1, h2, h3⟩
      have hfi : (a :: l).findIdx p = l.findIdx p + 1 := by
        simp [List.findIdx_cons, hpa]
      refine ⟨?_, ?_, ?_⟩
      · simpa [hfi] using Nat.succ_lt_succ h1
      · simpa [hfi] using h2
      · intro j hj
        rw [hfi] at hj
        cases j with
        | zero => simpa using Bool.eq_false_iff.mpr hpa
        | succ k =>
          rw [List.getD_cons_succ]
          exact h3 k (by omega)

/-- **C8.**  `get_pll_idx` returns `-1` below the smallest table
frequency (24 MHz), the last index (20) above the largest (1000 MHz),
and otherwise the index of the smallest (first, the table being
ascending) entry whose frequency is at least the request. -/
theorem get_pll_idx_spec (f : Int) :
    (f < 24 → get_pll_idx f = -1) ∧
    (f > 1000 → get_pll_idx f = 20) ∧
    (24 ≤ f → f ≤ 1000 →
      ∃ i : Nat, get_pll_idx f = (i : Int) ∧ i < NUM_PLL_SET ∧
        f ≤ pll_freqs.getD i 0 ∧ ∀ j, j < i → pll_freqs.getD j 0 < f) := by
  have e0 : pll_freqs.getD 0 0 = 24 := rfl
  have eL : pll_freqs.getD (NUM_PLL_SET - 1) 0 = 1000 := rfl
  have eN : NUM_PLL_SET = 21 := rfl
  refine ⟨?_, ?_, ?_⟩
  · intro h
    rw [get_pll_idx, if_pos (by rw [e0]; exact h)]
  · intro h
    rw [get_pll_idx, if_neg (by rw [e0]; omega), if_pos (by rw [eL]; exact h),
      eN]
    rfl
  · intro h1 h2
    rw [get_pll_idx, if_neg (by rw [e0]; omega), if_neg (by rw [eL]; omega)]
    have hex : ∃ x ∈ pll_freqs, (fun q => decide (f ≤ q)) x = true := by
      refine ⟨1000, by norm_num [pll_freqs], by simpa using h2⟩
    rcases findIdx_getD_spec (fun q => decide (f ≤ q)) pll_freqs 0 hex with
      ⟨h1', h2', h3'⟩
    refine ⟨pll_freqs.findIdx (fun q => decide (f ≤ q)), rfl, h1', by simpa using h2',
      fun j hj => by simpa using h3' j hj⟩

/-- Witness for C8 at `f = 550` (an in-range request). -/
theorem get_pll_idx_spec_witness :
    (24 ≤ (550 : Int)) ∧ ((550 : Int) ≤ 1000) ∧
    ∃ i : Nat, get_pll_idx 550 = (i : Int) ∧ i < NUM_PLL_SET ∧
      (550 : Int) ≤ pll_freqs.getD i 0 ∧ ∀ j, j < i → pll_freqs.getD j 0 < 550 :=
  ⟨by norm_num, by norm_num,
   (get_pll_idx_spec 550).2.2 (by norm_num) (by norm_num)⟩

/-! ## Claim C10: memory-safety envelope of `nbits_from_target` -/

/-- If the scan finds no nonzero byte at or below `n`, all those bytes
are zero. -/
theorem hiNonzeroAux_none (t : Nat → Nat) :
    ∀ n, hiNonzeroAux t n = none → ∀ j, j ≤ n → byteAt t j = 0 := by
  intro n
  induction n with
  | zero =>
    intro h j hj
    have hj0 : j = 0 := by omega
    subst hj0
    by_contra hb
    rw [hiNonzeroAux, if_pos hb] at h
    exact Option.noConfusion h
  | succ m ih =>
    intro h j hj
    by_cases hb : byteAt t (m + 1) ≠ 0
    · rw [hiNonzeroAux, if_pos hb] at h
      exact Option.noConfusion h
    · push_neg at hb
      rw [hiNonzeroAux, if_neg (by simp [hb])] at h
      by_cases hj1 : j = m + 1
      · subst hj1; exact hb
      · exact ih h j (by omega)

/-- The scan's result is a nonzero byte index dominating all higher
indices in range. -/
theorem hiNonzeroAux_some (t : Nat → Nat) :
    ∀ n k, hiNonzeroAux t n = some k →
      byteAt t k ≠ 0 ∧ k ≤ n ∧ ∀ j, k < j → j ≤ n → byteAt t j = 0 := by
  intro n
  induction n with
  | zero =>
    intro k h
    by_cases hb : byteAt t 0 ≠ 0
    · rw [hiNonzeroAux, if_pos hb] at h
      have hk : k = 0 := (Option.some_inj.mp h).symm
      subst hk
      exact ⟨hb, Nat.le_refl 0, fun j hj hj0 => by omega⟩
    · rw [hiNonzeroAux, if_neg hb] at h
      exact Option.noConfusion h
  | succ m ih =>
    intro k h
    by_cases hb : byteAt t (m + 1) ≠ 0
    · rw [hiNonzeroAux, if_pos hb] at h
      have hk : k = m + 1 := (Option.some_inj.mp h).symm
      subst hk
      exact ⟨hb, Nat.le_refl _, fun j hj hjm => by omega⟩
    · rw [hiNonzeroAux, if_neg hb] at h
      obtain ⟨h1, h2, h3⟩ := ih k h
      push_neg at hb
      refine ⟨h1, by omega, fun j hj hjm => ?_⟩
      by_cases hj1 : j = m + 1
      · subst hj1; exact hb
      · exact h3 j hj (by omega)

/-- Conversely, the highest nonzero index in range is what the scan
returns. -/
theorem hiNonzeroAux_eq_some (t : Nat → Nat) :
    ∀ n k, byteAt t k ≠ 0 → k ≤ n → (∀ j, k < j → j ≤ n → byteAt t j = 0) →
      hiNonzeroAux t n = some k := by
  intro n
  induction n with
  | zero =>
    intro k hk hk0 _
    have hke : k = 0 := by omega
    subst hke
    rw [hiNonzeroAux, if_pos hk]
  | succ m ih =>
    intro k hk hkm hall
    by_cases hkeq : k = m + 1
    · subst hkeq
      rw [hiNonzeroAux, if_pos hk]
    · have hbm : byteAt t (m + 1) = 0 := hall (m + 1) (by omega) (Nat.le_refl _)
      rw [hiNonzeroAux, if_neg (by simp [hbm])]
      exact ih k hk (by omega) (fun j hj hjm => hall j hj (by omega))

/-- `readByte` on an in-bounds index. -/
theorem readByte_in (t : Nat → Nat) (i : Int) (h0 : 0 ≤ i) (h31 : i ≤ 31) :
    readByte t i = some (byteAt t i.toNat) := by
  rw [readByte, if_pos ⟨h0, h31⟩]

/-- `readByte` on an out-of-bounds index. -/
theorem readByte_out (t : Nat → Nat) (i : Int) (h : ¬(0 ≤ i ∧ i ≤ 31)) :
    readByte t i = none := by
  rw [readByte, if_neg h]

/-- On a well-formed target (highest nonzero byte at index `k ≥ 2`, and
`k ≤ 30` whenever the byte two below it is zero), the instrumented run
succeeds and computes the same value as the pure `nbits_from_target`. -/
theorem nbits_run_eq_some (t : Nat → Nat) (k : Nat)
    (hk : hiNonzero t = some k) (hk2 : 2 ≤ k)
    (hbound : byteAt t (k - 2) = 0 → k ≤ 30) :
    nbits_run t = some (nbits_from_target t) := by
  have hk31 : k ≤ 31 := (hiNonzeroAux_some t 31 k hk).2.1
  have htn : ((k : Int) - 2).toNat = k - 2 := by omega
  simp only [nbits_run, nbits_from_target, hk, Option.pure_def,
    Option.bind_eq_bind, Option.some_bind]
  rw [readByte_in t _ (by omega) (by omega), htn]
  simp only [Option.some_bind]
  by_cases hb : byteAt t (k - 2) = 0
  · have hk30 : k ≤ 30 := hbound hb
    rw [if_pos hb, if_pos hb]
    rw [readByte_in t _ (by omega) (by omega)]
    simp only [Option.some_bind]
    rw [readByte_in t _ (by omega) (by omega)]
    simp only [Option.some_bind]
    rw [readByte_in t _ (by omega) (by omega)]
    simp only [Option.some_bind]
    have e1 : ((k : Int) + 1).toNat = k + 1 := by omega
    have e2 : ((k : Int) + 1 - 1).toNat = k + 1 - 1 := by omega
    have e3 : ((k : Int) + 1 - 2).toNat = k + 1 - 2 := by omega
    rw [e1, e2, e3]
  · rw [if_neg hb, if_neg hb]
    rw [readByte_in t _ (by omega) (by omega)]
    simp only [Option.some_bind]
    rw [readByte_in t _ (by omega) (by omega)]
    simp only [Option.some_bind]
    rw [readByte_in t _ (by omega) (by omega)]
    simp only [Option.some_bind]
    have e1 : ((k : Int)).toNat = k := by omega
    have e2 : ((k : Int) - 1).toNat = k - 1 := by omega
    have e3 : ((k : Int) - 2).toNat = k - 2 := by omega
    rw [e1, e2, e3]

/-- Characterisation of the in-bounds runs of `nbits_from_target`
(shared by the C10 statement and the C5 development). -/
theorem nbits_run_isSome_char (t : Nat → Nat) :
    (nbits_run t).isSome = true ↔
      ∃ k, (byteAt t k ≠ 0 ∧ k ≤ 31 ∧ ∀ j, k < j → j ≤ 31 → byteAt t j = 0) ∧
        (2 ≤ k ∧ k ≤ 30 ∨ k = 31 ∧ byteAt t 29 ≠ 0) := by
  constructor
  · intro h
    cases hk : hiNonzero t with
    | none =>
      rw [nbits_run] at h
      rw [hk] at h
      simp at h
    | some k =>
      obtain ⟨hnz, hk31, hhi⟩ := hiNonzeroAux_some t 31 k hk
      refine ⟨k, ⟨hnz, hk31, hhi⟩, ?_⟩
      simp only [nbits_run, hk, Option.pure_def, Option.bind_eq_bind,
        Option.some_bind] at h
      by_cases hk2 : 2 ≤ k
      · have htn : ((k : Int) - 2).toNat = k - 2 := by omega
        rw [readByte_in t _ (by omega) (by omega), htn] at h
        simp only [Option.some_bind] at h
        by_cases hb : byteAt t (k - 2) = 0
        · -- bump: ii = k + 1; in bounds only when k ≤ 30
          by_cases hk30 : k ≤ 30
          · exact Or.inl ⟨hk2, hk30⟩
          · exfalso
            have hk31' : k = 31 := by omega
            rw [if_pos hb] at h
            rw [readByte_out t _ (by omega)] at h
            simp at h
        · -- no bump: ii = k
          by_cases hk30 : k ≤ 30
          · exact Or.inl ⟨hk2, hk30⟩
          · have hk31' : k = 31 := by omega
            exact Or.inr ⟨hk31', by rw [hk31'] at hb; simpa using hb⟩
      · exfalso
        rw [readByte_out t _ (by omega)] at h
        simp at h
  · rintro ⟨k, ⟨hnz, hk31, hhi⟩, hcond⟩
    have hk : hiNonzero t = some k := hiNonzeroAux_eq_some t 31 k hnz hk31 hhi
    have hk2 : 2 ≤ k := by rcases hcond with ⟨h2, _⟩ | ⟨he, _⟩ <;> omega
    have hbound : byteAt t (k - 2) = 0 → k ≤ 30 := by
      intro hb
      rcases hcond with ⟨_, h30⟩ | ⟨he, hb29⟩
      · exact h30
      · subst he
        exact absurd hb (by simpa using hb29)
    rw [nbits_run_eq_some t k hk hk2 hbound]
    rfl

/-- **C10.**  The instrumented run of `nbits_from_target` stays within
`target[0..31]` (and terminates) exactly when the highest nonzero byte
sits at an index `k` with `2 ≤ k ≤ 30`, or at `k = 31` with byte 29
also nonzero. -/
theorem nbits_run_isSome_iff (t : Nat → Nat) :
    (nbits_run t).isSome = true ↔
      ∃ k, (byteAt t k ≠ 0 ∧ k ≤ 31 ∧ ∀ j, k < j → j ≤ 31 → byteAt t j = 0) ∧
        (2 ≤ k ∧ k ≤ 30 ∨ k = 31 ∧ byteAt t 29 ≠ 0) :=
  nbits_run_isSome_char t

/-! ## Claim C5: the 6-byte WRITE_TARGET payload -/

/-- A run of the driver's derivation that succeeds with value `nb`
pins down the pure `nbits_from_target` value. -/
theorem nbits_run_value (t : Nat → Nat) (nb : Nat)
    (h : nbits_run t = some nb) : nbits_from_target t = nb := by
  have hs : (nbits_run t).isSome = true := by rw [h]; rfl
  obtain ⟨k, ⟨hnz, hk31, hhi⟩, hcond⟩ := (nbits_run_isSome_char t).mp hs
  have hk : hiNonzero t = some k := hiNonzeroAux_eq_some t 31 k hnz hk31 hhi
  have hk2 : 2 ≤ k := by rcases hcond with ⟨h2, _⟩ | ⟨he, _⟩ <;> omega
  have hbound : byteAt t (k - 2) = 0 → k ≤ 30 := by
    intro hb
    rcases hcond with ⟨_, h30⟩ | ⟨he, hb29⟩
    · exact h30
    · subst he
      exact absurd hb (by simpa using hb29)
  have hrun := nbits_run_eq_some t k hk hk2 hbound
  rw [h] at hrun
  exact (Option.some_inj.mp hrun).symm

/-- The little-endian store of `bswap_32 nbits` lays out the big-endian
bytes of `nbits`, and the select bytes are the stated functions of the
most significant byte. -/
theorem calc_btc08_target_bytes (nb : Nat) :
    calc_btc08_target nb =
      [nb / 2 ^ 24 % 256, nb / 2 ^ 16 % 256, nb / 2 ^ 8 % 256, nb % 256,
       (nb / 2 ^ 24 % 256 / 4 + 255) % 256,
       ((nb / 2 ^ 24 % 256 % 4 + 1) % 256) <<< 4 % 256] := by
  have p8 : (2 : Nat) ^ 8 = 256 := rfl
  have p16 : (2 : Nat) ^ 16 = 65536 := rfl
  have p24 : (2 : Nat) ^ 24 = 16777216 := rfl
  have h0 : bswap_32 nb % 256 = nb / 16777216 % 256 := by
    simp only [bswap_32]; omega
  have h1 : bswap_32 nb / 256 % 256 = nb / 65536 % 256 := by
    simp only [bswap_32]
    have hq : (nb % 256 * 16777216 + nb / 256 % 256 * 65536 +
        nb / 65536 % 256 * 256 + nb / 16777216 % 256) / 256
        = nb % 256 * 65536 + nb / 256 % 256 * 256 + nb / 65536 % 256 := by
      omega
    rw [hq]
    omega
  have h2 : bswap_32 nb / 65536 % 256 = nb / 256 % 256 := by
    clear h0 h1
    simp only [bswap_32]
    have hq : (nb % 256 * 16777216 + nb / 256 % 256 * 65536 +
        nb / 65536 % 256 * 256 + nb / 16777216 % 256) / 65536
        = nb % 256 * 256 + nb / 256 % 256 := by
      omega
    rw [hq]
    omega
  have h3 : bswap_32 nb / 16777216 % 256 = nb % 256 := by
    clear h0 h1 h2
    simp only [bswap_32]
    have hq : (nb % 256 * 16777216 + nb / 256 % 256 * 65536 +
        nb / 65536 % 256 * 256 + nb / 16777216 % 256) / 16777216
        = nb % 256 := by
      omega
    rw [hq]
    omega
  simp only [p8, p16, p24, calc_btc08_target, h0, h1, h2, h3]

/-- **C5 (amended).**  When the batched job includes a WRITE_TARGET
(`work.sdiff` differs from the chain's `sdiff`) and the driver's
nBits derivation runs in bounds with value `nb`, the WRITE_TARGET frame
carries: the opcode and broadcast id, the four big-endian bytes of `nb`
(the driver's `nbits_from_target`, not the standard Bitcoin compact
encoding), `select0 = (nb_msb / 4) - 1` (`uint8_t` wrap-around) and
`select1 = ((nb_msb % 4) + 1) << 4`, then the dummy byte. -/
theorem write_target_frame_spec (ch : Chain) (j : Nat) (job : List Nat)
    (w : Work) (ok : Bool) (nb : Nat) (hnb : nbits_run w.target = some nb)
    (hs : ch.sdiff ≠ w.sdiff) :
    (cmd_WRITE_JOB_fast ch j job w ok).frames.getD 1 [] =
      [SPI_CMD_WRITE_TARGET, BCAST_CHIP_ID,
       nb / 2 ^ 24 % 256, nb / 2 ^ 16 % 256, nb / 2 ^ 8 % 256, nb % 256,
       (nb / 2 ^ 24 % 256 / 4 + 255) % 256,
       ((nb / 2 ^ 24 % 256 % 4 + 1) % 256) <<< 4 % 256, 0] := by
  have hv := nbits_run_value w.target nb hnb
  simp only [cmd_WRITE_JOB_fast, if_pos hs, hv, calc_btc08_target_bytes]
  rfl

/-- **C5 counterexample.**  For the well-formed target `tCtr` of value
`0x800001`, the driver derives nBits `0x03800001` (exponent 3, mantissa
`0x800001`), while the standard Bitcoin compact encoding is
`0x04008000` (the mantissa's top byte being `≥ 0x80` forces a shift):
the first payload byte fed to WRITE_TARGET is `0x03`, not the standard
encoding's `0x04`. -/
theorem write_target_not_standard_compact :
    nbits_run tCtr = some 0x03800001 ∧
    targetValue tCtr 32 = 0x800001 ∧
    standardCompact (targetValue tCtr 32) = 0x04008000 ∧
    (calc_btc08_target (nbits_from_target tCtr)).getD 0 0 = 0x03 ∧
    standardCompact (targetValue tCtr 32) / 2 ^ 24 % 256 = 0x04 ∧
    ((cmd_WRITE_JOB_fast chainIdle 1 [] wCtr false).frames.getD 1 []).getD 2 0
      = 0x03 ∧
    ((cmd_WRITE_JOB_fast chainIdle 1 [] wCtr false).frames.getD 1 []).getD 2 0
      ≠ standardCompact (targetValue tCtr 32) / 2 ^ 24 % 256 := by
  refine ⟨by decide, by decide, by decide, by decide, by decide, by decide,
    by decide⟩

/-- Witness for the amended C5 at the concrete target `tCtr`. -/
theorem write_target_frame_spec_witness :
    nbits_run wCtr.target = some 0x03800001 ∧
    chainIdle.sdiff ≠ wCtr.sdiff ∧
    (cmd_WRITE_JOB_fast chainIdle 1 [] wCtr false).frames.getD 1 [] =
      [SPI_CMD_WRITE_TARGET, BCAST_CHIP_ID,
       0x03800001 / 2 ^ 24 % 256, 0x03800001 / 2 ^ 16 % 256,
       0x03800001 / 2 ^ 8 % 256, 0x03800001 % 256,
       (0x03800001 / 2 ^ 24 % 256 / 4 + 255) % 256,
       ((0x03800001 / 2 ^ 24 % 256 % 4 + 1) % 256) <<< 4 % 256, 0] :=
  ⟨by decide, by decide,
   write_target_frame_spec chainIdle 1 [] wCtr false 0x03800001 (by decide)
     (by decide)⟩

/-- Witness for C10: the highest nonzero byte of `tCtr` is at index 2
with its byte two below nonzero, so the run stays in bounds. -/
theorem nbits_run_isSome_iff_witness :
    ∃ k, (byteAt tCtr k ≠ 0 ∧ k ≤ 31 ∧ ∀ j, k < j → j ≤ 31 → byteAt tCtr j = 0) ∧
      (2 ≤ k ∧ k ≤ 30 ∨ k = 31 ∧ byteAt tCtr 29 ≠ 0) :=
  (nbits_run_isSome_iff tCtr).mp (by decide)

/-! ## Claim C4: `calc_nonce_range` partitions the nonce space -/

/-- `perfSum` with the first chip peeled off. -/
theorem perfSum_succ_first (cs : Nat → BChip) (L : Nat) :
    ∀ t, perfSum cs L (t + 1) = (cs L).perf + perfSum cs (L + 1) t := by
  intro t
  induction t with
  | zero => simp [perfSum]
  | succ m ih =>
    show perfSum cs L (m + 1) + (cs (L + (m + 1))).perf = _
    rw [ih]
    show _ = (cs L).perf + (perfSum cs (L + 1) m + (cs (L + 1 + m)).perf)
    have : L + (m + 1) = L + 1 + m := by omega
    rw [this]
    omega

/-- `shareSum` with the first chip peeled off. -/
theorem shareSum_succ_first (P : Nat) (cs : Nat → BChip) (L : Nat) :
    ∀ t, shareSum P cs L (t + 1) =
      nonce_share P ((cs L).perf) + shareSum P cs (L + 1) t := by
  intro t
  induction t with
  | zero => simp [shareSum]
  | succ m ih =>
    show shareSum P cs L (m + 1) + nonce_share P ((cs (L + (m + 1))).perf) = _
    rw [ih]
    show _ = nonce_share P ((cs L).perf) +
      (shareSum P cs (L + 1) m + nonce_share P ((cs (L + 1 + m)).perf))
    have : L + (m + 1) = L + 1 + m := by omega
    rw [this]
    omega

/-- `perfSum` only reads the `perf` fields. -/
theorem perfSum_congr (cs cs' : Nat → BChip)
    (h : ∀ j, (cs' j).perf = (cs j).perf) (L : Nat) :
    ∀ t, perfSum cs' L t = perfSum cs L t := by
  intro t
  induction t with
  | zero => rfl
  | succ m ih => show perfSum cs' L m + _ = perfSum cs L m + _; rw [ih, h]

/-- `shareSum` only reads the `perf` fields. -/
theorem shareSum_congr (P : Nat) (cs cs' : Nat → BChip)
    (h : ∀ j, (cs' j).perf = (cs j).perf) (L : Nat) :
    ∀ t, shareSum P cs' L t = shareSum P cs L t := by
  intro t
  induction t with
  | zero => rfl
  | succ m ih => show shareSum P cs' L m + _ = shareSum P cs L m + _; rw [ih, h]

/-- The loop never touches chips below its starting index. -/
theorem cnr_go_lt (P : Nat) :
    ∀ (steps : Nat) (cs : Nat → BChip) (ii j : Nat), j < ii →
      cnr_go P cs ii steps j = cs j := by
  intro steps
  induction steps with
  | zero => intro cs ii j _; rfl
  | succ m ih =>
    intro cs ii j hj
    show cnr_go P _ (ii + 1) m j = cs j
    rw [ih _ (ii + 1) j (by omega)]
    simp only [updChip, if_neg (by omega : ¬ j = ii + 1),
      if_neg (by omega : ¬ j = ii)]

/-- The loop never changes any chip's `perf`. -/
theorem cnr_go_perf (P : Nat) :
    ∀ (steps : Nat) (cs : Nat → BChip) (ii j : Nat),
      (cnr_go P cs ii steps j).perf = (cs j).perf := by
  intro steps
  induction steps with
  | zero => intro cs ii j; rfl
  | succ m ih =>
    intro cs ii j
    show (cnr_go P _ (ii + 1) m j).perf = _
    rw [ih]
    simp only [updChip]
    by_cases h1 : j = ii + 1
    · subst h1
      simp only [if_pos rfl]
      by_cases h2 : ii + 1 = ii
      · omega
      · simp [if_neg h2]
    · rw [if_neg h1]
      by_cases h2 : j = ii
      · subst h2; simp
      · rw [if_neg h2]

/-- Exact-arithmetic characterisation of the partitioning loop: when
the budget `start + steps + Σ shares` fits below `MAX_NONCE_SIZE`, no
`uint32_t` store wraps; each processed chip's `end` is its `start` plus
its share, each successor's `start` is the predecessor's `end + 1`, and
the loop exits with `start = start₀ + steps + Σ shares`. -/
theorem cnr_go_exact (P : Nat) :
    ∀ (steps : Nat) (cs : Nat → BChip) (ii : Nat),
      (cs ii).start_nonce + steps + shareSum P cs ii steps ≤ MAX_NONCE_SIZE →
      ((cnr_go P cs ii steps) ii).start_nonce = (cs ii).start_nonce ∧
      (∀ k, k < steps →
        ((cnr_go P cs ii steps) (ii + k)).end_nonce =
          ((cnr_go P cs ii steps) (ii + k)).start_nonce +
            nonce_share P ((cs (ii + k)).perf) ∧
        ((cnr_go P cs ii steps) (ii + k + 1)).start_nonce =
          ((cnr_go P cs ii steps) (ii + k)).end_nonce + 1 ∧
        ((cnr_go P cs ii steps) (ii + k)).end_nonce ≤ MAX_NONCE_SIZE) ∧
      ((cnr_go P cs ii steps) (ii + steps)).start_nonce =
        (cs ii).start_nonce + steps + shareSum P cs ii steps := by
  intro steps
  induction steps with
  | zero =>
    intro cs ii _
    refine ⟨rfl, fun k hk => absurd hk (by omega), ?_⟩
    show (cs (ii + 0)).start_nonce = (cs ii).start_nonce + 0 + shareSum P cs ii 0
    simp [shareSum]
  | succ m ih =>
    intro cs ii hbud
    have hMU : MAX_NONCE_SIZE < U32 := by norm_num [MAX_NONCE_SIZE, U32]
    have hpeel := shareSum_succ_first P cs ii m
    set A := (cs ii).start_nonce with hA
    set s0 := nonce_share P ((cs ii).perf) with hs0
    have hAs : A + s0 + 1 ≤ MAX_NONCE_SIZE := by
      rw [hpeel] at hbud
      omega
    have he : (A + s0) % U32 = A + s0 := Nat.mod_eq_of_lt (by omega)
    have he1 : (A + s0 + 1) % U32 = A + s0 + 1 := Nat.mod_eq_of_lt (by omega)
    -- the state after the first iteration
    set cs1 := updChip cs ii { cs ii with end_nonce := (A + s0) % U32 } with hcs1
    set cs2 := updChip cs1 (ii + 1)
      { cs1 (ii + 1) with start_nonce := ((A + s0) % U32 + 1) % U32 } with hcs2
    have hgo : cnr_go P cs ii (m + 1) = cnr_go P cs2 (ii + 1) m := rfl
    have hperf : ∀ j, (cs2 j).perf = (cs j).perf := by
      intro j
      simp only [hcs2, hcs1, updChip]
      by_cases h1 : j = ii + 1
      · subst h1
        simp only [if_pos rfl]
        by_cases h2 : ii + 1 = ii
        · omega
        · simp [if_neg h2]
      · rw [if_neg h1]
        by_cases h2 : j = ii
        · subst h2; simp
        · rw [if_neg h2]
    have hstart2 : (cs2 (ii + 1)).start_nonce = A + s0 + 1 := by
      simp [hcs2, updChip, he, he1]
    have hbud2 : (cs2 (ii + 1)).start_nonce + m + shareSum P cs2 (ii + 1) m ≤
        MAX_NONCE_SIZE := by
      rw [hstart2, shareSum_congr P cs cs2 hperf]
      rw [hpeel] at hbud
      omega
    obtain ⟨ih1, ih2, ih3⟩ := ih cs2 (ii + 1) hbud2
    have hfr : cnr_go P cs2 (ii + 1) m ii = cs2 ii := cnr_go_lt P m cs2 (ii + 1) ii (by omega)
    have hcs2ii : cs2 ii = { cs ii with end_nonce := A + s0 } := by
      simp [hcs2, hcs1, updChip, he, (by omega : ¬ ii = ii + 1)]
    refine ⟨?_, ?_, ?_⟩
    · rw [hgo, hfr, hcs2ii]
    · intro k hk
      cases k with
      | zero =>
        refine ⟨?_, ?_, ?_⟩
        · rw [hgo]
          simp only [Nat.add_zero]
          rw [hfr, hcs2ii]
        · rw [hgo]
          simp only [Nat.add_zero]
          rw [hfr, hcs2ii, ih1, hstart2]
        · rw [hgo]
          simp only [Nat.add_zero]
          rw [hfr, hcs2ii]
          show A + s0 ≤ MAX_NONCE_SIZE
          omega
      | succ k' =>
        have hk' : k' < m := by omega
        obtain ⟨e1, e2, e3⟩ := ih2 k' hk'
        have hidx : ii + (k' + 1) = ii + 1 + k' := by omega
        have hidx2 : ii + (k' + 1) + 1 = ii + 1 + k' + 1 := by omega
        refine ⟨?_, ?_, ?_⟩
        · rw [hgo, hidx, e1, hperf]
        · rw [hgo, hidx2, hidx, e2]
        · rw [hgo, hidx]
          exact e3
    · have hidx : ii + (m + 1) = ii + 1 + m := by omega
      rw [hgo, hidx, ih3, hstart2, shareSum_congr P cs cs2 hperf, hpeel]
      omega

/-- When every perf is at most the chain total and the total fits in
32 bits, the 64-bit product `MAX_NONCE_SIZE * perf` cannot wrap. -/
theorem nonce_share_eq (P p : Nat) (hp : p ≤ P) (hP32 : P ≤ 2 ^ 32) :
    nonce_share P p = MAX_NONCE_SIZE * p / P := by
  have h1 : MAX_NONCE_SIZE * p < U64 := by
    have ha : MAX_NONCE_SIZE * p ≤ MAX_NONCE_SIZE * P :=
      Nat.mul_le_mul_left _ hp
    have hb : MAX_NONCE_SIZE * P ≤ MAX_NONCE_SIZE * 2 ^ 32 :=
      Nat.mul_le_mul_left _ hP32
    have hc : MAX_NONCE_SIZE * 2 ^ 32 < U64 := by
      norm_num [MAX_NONCE_SIZE, U64]
    omega
  rw [nonce_share, Nat.mod_eq_of_lt h1]

/-- Each chip's perf is at most the sum over the active range. -/
theorem perf_le_perfSum (cs : Nat → BChip) (L : Nat) :
    ∀ t k, k < t → (cs (L + k)).perf ≤ perfSum cs L t := by
  intro t
  induction t with
  | zero => intro k hk; omega
  | succ m ih =>
    intro k hk
    show _ ≤ perfSum cs L m + (cs (L + m)).perf
    by_cases hkm : k = m
    · subst hkm; omega
    · have := ih k (by omega)
      omega

/-- The sum of the floored shares is at most the floor of the summed
share. -/
theorem shareSum_le_div (P : Nat) (hP : 0 < P) (cs : Nat → BChip) (L : Nat)
    (hP32 : P ≤ 2 ^ 32) :
    ∀ t, (∀ k, k < t → (cs (L + k)).perf ≤ P) →
      shareSum P cs L t ≤ MAX_NONCE_SIZE * perfSum cs L t / P := by
  have hiadd : ∀ a b : Nat, a / P + b / P ≤ (a + b) / P := by
    intro a b
    rw [Nat.le_div_iff_mul_le hP, Nat.add_mul]
    have ha := Nat.div_mul_le_self a P
    have hb := Nat.div_mul_le_self b P
    omega
  intro t
  induction t with
  | zero => intro _; simp [shareSum, perfSum]
  | succ m ih =>
    intro hbnd
    show shareSum P cs L m + nonce_share P ((cs (L + m)).perf) ≤
      MAX_NONCE_SIZE * (perfSum cs L m + (cs (L + m)).perf) / P
    rw [nonce_share_eq P _ (hbnd m (by omega)) hP32]
    have h1 := ih (fun k hk => hbnd k (by omega))
    have h2 := hiadd (MAX_NONCE_SIZE * perfSum cs L m)
      (MAX_NONCE_SIZE * (cs (L + m)).perf)
    rw [← Nat.mul_add] at h2
    omega

/-- The budget inequality: if the final chip's share commitment covers
the loop count, the loop's cumulative assignment stays below
`MAX_NONCE_SIZE`. -/
theorem budget_le (S q steps P : Nat) (hP : 0 < P) (hSq : S + q = P)
    (hstep : steps * P ≤ MAX_NONCE_SIZE * q + (P - 1)) :
    steps + MAX_NONCE_SIZE * S / P ≤ MAX_NONCE_SIZE := by
  have h1 : MAX_NONCE_SIZE * S / P * P ≤ MAX_NONCE_SIZE * S :=
    Nat.div_mul_le_self _ _
  have h2 : MAX_NONCE_SIZE * S + MAX_NONCE_SIZE * q = MAX_NONCE_SIZE * P := by
    rw [← Nat.mul_add, hSq]
  have h3 : (steps + MAX_NONCE_SIZE * S / P) * P < (MAX_NONCE_SIZE + 1) * P := by
    have e1 : (steps + MAX_NONCE_SIZE * S / P) * P =
        steps * P + MAX_NONCE_SIZE * S / P * P := by ring
    have e2 : (MAX_NONCE_SIZE + 1) * P = MAX_NONCE_SIZE * P + P := by ring
    omega
  have h4 : steps + MAX_NONCE_SIZE * S / P < MAX_NONCE_SIZE + 1 :=
    lt_of_mul_lt_mul_right h3 (Nat.zero_le P)
  omega

/-- **C4 (amended).**  With test mode off, `chain.perf` equal to the sum
of the active chips' perfs, a positive total fitting in 32 bits, and the
last chip's share commitment `MAX_NONCE·perf_last > (num-2-last_chip)·P`
(ruling out the `uint32_t` wrap-around of the original claim's
counterexample), `calc_nonce_range` partitions the nonce space: the
first active chip starts at 0, the last ends exactly at
`MAX_NONCE_SIZE`, adjacent ranges abut (`end+1 = start`), and every
active chip's range is non-empty (`start ≤ end`). -/
theorem calc_nonce_range_partitions (L n P : Nat) (cs : Nat → BChip)
    (hLn : L < n) (hsum : P = perfSum cs L (n - L)) (hP : 0 < P)
    (hP32 : P ≤ 2 ^ 32)
    (hlast : (n - 2 - L) * P < MAX_NONCE_SIZE * (cs (n - 1)).perf) :
    ((calc_nonce_range 0 L n P cs) L).start_nonce = 0 ∧
    ((calc_nonce_range 0 L n P cs) (n - 1)).end_nonce = MAX_NONCE_SIZE ∧
    (∀ i, L ≤ i → i + 1 < n →
      ((calc_nonce_range 0 L n P cs) i).end_nonce + 1 =
        ((calc_nonce_range 0 L n P cs) (i + 1)).start_nonce) ∧
    (∀ i, L ≤ i → i < n →
      ((calc_nonce_range 0 L n P cs) i).start_nonce ≤
        ((calc_nonce_range 0 L n P cs) i).end_nonce) := by
  have hr : calc_nonce_range 0 L n P cs =
      updChip (cnr_go P (updChip cs L { cs L with start_nonce := 0 }) L
          (n - 1 - L)) (n - 1)
        { (cnr_go P (updChip cs L { cs L with start_nonce := 0 }) L
            (n - 1 - L)) (n - 1) with end_nonce := MAX_NONCE_SIZE } := by
    simp only [calc_nonce_range, if_neg (by norm_num : ¬ (0 : Nat) = 1)]
  set cs0 := updChip cs L { cs L with start_nonce := 0 } with hcs0
  set steps := n - 1 - L with hsteps
  set cs1 := cnr_go P cs0 L steps with hcs1
  -- perf fields are untouched by the initial store
  have hperf0 : ∀ j, (cs0 j).perf = (cs j).perf := by
    intro j
    simp only [hcs0, updChip]
    by_cases h : j = L
    · subst h; simp
    · rw [if_neg h]
  have hstart0 : (cs0 L).start_nonce = 0 := by simp [hcs0, updChip]
  -- the active perfs sum to P with the last chip peeled off
  have hnL : n - L = steps + 1 := by omega
  have hq : perfSum cs L steps + (cs (n - 1)).perf = P := by
    have : perfSum cs L (steps + 1) = perfSum cs L steps + (cs (L + steps)).perf :=
      rfl
    rw [hsum, hnL, this]
    have hLs : L + steps = n - 1 := by omega
    rw [hLs]
  -- the budget inequality
  have hstep : steps * P ≤ MAX_NONCE_SIZE * (cs (n - 1)).perf + (P - 1) := by
    by_cases h0 : steps = 0
    · rw [h0]
      simp
    · have hs1 : 1 ≤ steps := by omega
      have hexp : steps * P = (steps - 1) * P + P := by
        have hst : steps = (steps - 1) + 1 := by omega
        calc steps * P = ((steps - 1) + 1) * P := by rw [← hst]
          _ = (steps - 1) * P + P := by ring
      have hlast' : (steps - 1) * P < MAX_NONCE_SIZE * (cs (n - 1)).perf := by
        have hn2 : n - 2 - L = steps - 1 := by omega
        rw [hn2] at hlast
        exact hlast
      omega
  have hbudget : steps + shareSum P cs L steps ≤ MAX_NONCE_SIZE := by
    have hbnd : ∀ k, k < steps → (cs (L + k)).perf ≤ P := by
      intro k hk
      have h1 := perf_le_perfSum cs L steps k hk
      omega
    have h1 := shareSum_le_div P hP cs L hP32 steps hbnd
    have h2 := budget_le (perfSum cs L steps) ((cs (n - 1)).perf) steps P hP hq
      hstep
    omega
  have hbud0 : (cs0 L).start_nonce + steps + shareSum P cs0 L steps ≤
      MAX_NONCE_SIZE := by
    rw [hstart0, shareSum_congr P cs cs0 hperf0]
    omega
  obtain ⟨E1, E2, E3⟩ := cnr_go_exact P steps cs0 L hbud0
  -- projections through the final end-store
  have hrstart : ∀ j, ((calc_nonce_range 0 L n P cs) j).start_nonce =
      (cs1 j).start_nonce := by
    intro j
    rw [hr]
    simp only [updChip]
    by_cases h : j = n - 1
    · subst h; simp
    · rw [if_neg h]
  have hrend : ∀ j, j ≠ n - 1 → ((calc_nonce_range 0 L n P cs) j).end_nonce =
      (cs1 j).end_nonce := by
    intro j hj
    rw [hr]
    simp only [updChip, if_neg hj]
  have hrendn : ((calc_nonce_range 0 L n P cs) (n - 1)).end_nonce =
      MAX_NONCE_SIZE := by
    rw [hr]
    simp [updChip]
  refine ⟨?_, hrendn, ?_, ?_⟩
  · rw [hrstart L, hcs1, E1, hstart0]
  · intro i hLi hin
    have hk : i - L < steps := by omega
    obtain ⟨e1, e2, _⟩ := E2 (i - L) hk
    have hLk : L + (i - L) = i := by omega
    rw [hLk] at e1 e2
    rw [hrend i (by omega), hrstart (i + 1), hcs1]
    exact e2.symm
  · intro i hLi hin
    by_cases hi : i = n - 1
    · subst hi
      rw [hrstart (n - 1), hrendn, hcs1]
      have hLs : L + steps = n - 1 := by omega
      rw [← hLs, E3, hstart0, shareSum_congr P cs cs0 hperf0]
      omega
    · have hk : i - L < steps := by omega
      obtain ⟨e1, _, _⟩ := E2 (i - L) hk
      have hLk : L + (i - L) = i := by omega
      rw [hLk] at e1
      rw [hrend i hi, hrstart i, hcs1, e1]
      omega

/-- **C4 counterexample.**  With test mode off, `last_chip = 0`,
`num_chips = 3`, perfs (2, 1, 0) and `chain.perf = 3` equal to their
sum, chip 0 receives `⌊MAX·2/3⌋ = 0xAAAAAAAA`, so chip 1 starts at
`0xAAAAAAAB` and its `end = start + ⌊MAX/3⌋` wraps modulo `2^32` to 0:
chip 1 violates `start_nonce ≤ end_nonce`, refuting the claim as
stated. -/
theorem calc_nonce_range_wraps_counterexample :
    (3 : Nat) = perfSum csCtr 0 (3 - 0) ∧
    ((calc_nonce_range 0 0 3 3 csCtr) 1).start_nonce = 0xAAAAAAAB ∧
    ((calc_nonce_range 0 0 3 3 csCtr) 1).end_nonce = 0 ∧
    ¬ (((calc_nonce_range 0 0 3 3 csCtr) 1).start_nonce ≤
       ((calc_nonce_range 0 0 3 3 csCtr) 1).end_nonce) := by
  refine ⟨by decide, by decide, by decide, by decide⟩

/-- Witness for the amended C4 on a 3-chip chain with perfs (2, 1, 1). -/
theorem calc_nonce_range_partitions_witness :
    ((0 : Nat) < 3 ∧ (4 : Nat) = perfSum csW 0 (3 - 0) ∧ (0 : Nat) < 4 ∧
      (4 : Nat) ≤ 2 ^ 32 ∧
      (3 - 2 - 0) * 4 < MAX_NONCE_SIZE * (csW (3 - 1)).perf) ∧
    ((calc_nonce_range 0 0 3 4 csW) 0).start_nonce = 0 ∧
    ((calc_nonce_range 0 0 3 4 csW) (3 - 1)).end_nonce = MAX_NONCE_SIZE ∧
    ((calc_nonce_range 0 0 3 4 csW) 1).end_nonce + 1 =
      ((calc_nonce_range 0 0 3 4 csW) 2).start_nonce ∧
    ((calc_nonce_range 0 0 3 4 csW) 1).start_nonce ≤
      ((calc_nonce_range 0 0 3 4 csW) 1).end_nonce :=
  ⟨⟨by decide, by decide, by decide, by decide, by decide⟩,
   (calc_nonce_range_partitions 0 3 4 csW (by decide) (by decide) (by decide)
      (by decide) (by decide)).1,
   (calc_nonce_range_partitions 0 3 4 csW (by decide) (by decide) (by decide)
      (by decide) (by decide)).2.1,
   (calc_nonce_range_partitions 0 3 4 csW (by decide) (by decide) (by decide)
      (by decide) (by decide)).2.2.1 1 (by decide) (by decide),
   (calc_nonce_range_partitions 0 3 4 csW (by decide) (by decide) (by decide)
      (by decide) (by decide)).2.2.2 1 (by decide) (by decide)⟩

end BTC08
